import Mathlib

/-!
Shallow embedding of the go-ycsb benchmark-client drivers (packages
`kvbeelog`, `localkv`, `etcd`, `loadgenkv` and the kvbeelog client
session `Info`) together with proofs about the spec claims.

Go byte strings are modelled as `List Nat` (one `Nat` per byte), machine
counters as `Nat` with explicit `% 2 ^ w` where the Go code uses
fixed-width atomics, and I/O oracles (dial outcomes, write outcomes,
random draws, datagram payloads, step durations) as explicit parameters.
-/

namespace GoYCSB

/-! ## Throughput monitor (db/localkv/db.go)

`lk.count` is a `uint32` incremented with `atomic.AddUint32` once per
logged command.  The repository holds two revisions of
`monitorThroughput`: the earlier one reads the counter with
`atomic.LoadUint32` (and does not reset it), the later one reads and
resets it with `atomic.SwapUint32(&lk.count, 0)`.  Each tick appends the
value read as one decimal line to the output file; we model a tick as
the pair (line appended, counter value after the tick). -/

/-- `atomic.AddUint32(&lk.count, 1)`: one increment of the shared
`uint32` operation counter. -/
def addUint32 (c : Nat) : Nat := (c + 1) % 2 ^ 32

/-- One tick of the earlier `monitorThroughput` revision
(db/localkv/db.go lines 113-127): `t := atomic.LoadUint32(&lk.count)`
then `fmt.Fprintf(lk.outFile, "%d\n", t)`.  Result: (line printed,
counter value after the tick). -/
def monitorTickLoad (c : Nat) : Nat × Nat := (c, c)

/-- One tick of the later `monitorThroughput` revision
(db/localkv/db.go lines 326-340): `t := atomic.SwapUint32(&lk.count, 0)`
then `fmt.Fprintf(lk.outFile, "%d\n", t)`.  Result: (line printed,
counter value after the tick). -/
def monitorTickSwap (c : Nat) : Nat × Nat := (c, 0)

theorem addUint32_iterate (n c : Nat) (h : c + n < 2 ^ 32) :
    addUint32^[n] c = c + n := by
  induction n generalizing c with
  | zero => simp
  | succ k ih =>
    rw [Function.iterate_succ_apply]
    have hc : addUint32 c = c + 1 := by
      unfold addUint32
      exact Nat.mod_eq_of_lt (by omega)
    rw [hc, ih (c + 1) (by omega)]
    omega

/-- Claim C1, counterexample.  In the earlier `monitorThroughput`
revision (db/localkv/db.go lines 113-127, cited by the claim) the
counter is only loaded, never reset: after one increment within a tick
interval the tick prints the line `1` but the counter still reads `1`,
not `0`, immediately after the tick. -/
theorem monitor_load_does_not_reset :
    (monitorTickLoad (addUint32^[1] 0)).1 = 1 ∧
    (monitorTickLoad (addUint32^[1] 0)).2 ≠ 0 := by
  decide

/-- Claim C1, amended.  For the swap-based revision of
`monitorThroughput` (db/localkv/db.go lines 326-340), incrementing the
shared counter `X` times from `0` within one tick interval makes the
tick print an output line equal to `X` and leaves the counter at `0`
immediately after; the earlier load-based revision (lines 113-127)
prints the same line but leaves the counter at `X`, never resetting
it. -/
theorem monitor_swap_tick_reads_and_resets (X : Nat) (h : X < 2 ^ 32) :
    monitorTickSwap (addUint32^[X] 0) = (X, 0) ∧
    monitorTickLoad (addUint32^[X] 0) = (X, X) := by
  have hi : addUint32^[X] 0 = X := by
    have := addUint32_iterate X 0 (by omega)
    simpa using this
  rw [hi]
  exact ⟨rfl, rfl⟩

/-- Witness for `monitor_swap_tick_reads_and_resets` at `X = 7`. -/
theorem monitor_swap_tick_witness :
    monitorTickSwap (addUint32^[7] 0) = (7, 0) ∧
    monitorTickLoad (addUint32^[7] 0) = (7, 7) :=
  monitor_swap_tick_reads_and_resets 7 (by decide)

/-! ## Commands and their wire encoding

`pb.Command` (package `github.com/Lz-Gustavo/beelog/pb`) is the protobuf
message built by every driver: operation (`GET`/`SET`), an optional
`uint64` id, a key, a value and a reply-address (`Ip`).  Go strings are
byte sequences, modelled as `List Nat`. -/

/-- `pb.Command_GET` / `pb.Command_SET`: the operation enum. -/
inductive Op where
  | GET : Op
  | SET : Op
deriving DecidableEq

/-- Modelled from the spec: the numeric values of the operation enum in
the protocol-buffer encoding (the pb package is external to src).  `GET`
is the zero default, `SET` is `1`. -/
def Op.toTag : Op → Nat
  | .GET => 0
  | .SET => 1

/-- `pb.Command`: one logical operation.  `id` is the `uint64` sequence
number (0 when unassigned), `key`, `value` and `ip` are Go strings
modelled as byte lists. -/
structure Command where
  op : Op
  id : Nat
  key : List Nat
  value : List Nat
  ip : List Nat
deriving DecidableEq

/-- Varint byte emission with explicit fuel (the fuel only serves to
make the recursion structural; `fuel ≥ n` always suffices because the
argument shrinks by a factor of 128 each step). -/
def varintEncF : Nat → Nat → List Nat
  | 0, n => [n % 128]
  | fuel + 1, n =>
    if n < 128 then [n] else (n % 128 + 128) :: varintEncF fuel (n / 128)

/-- Base-128 varint encoding of a natural number, least significant
group first, continuation bit `128` on every byte but the last (the
protocol-buffer integer encoding used by `proto.Marshal`). -/
def varintEnc (n : Nat) : List Nat := varintEncF n n

/-- Varint decoding: returns the decoded number and the remaining
bytes. -/
def varintDec : List Nat → Option (Nat × List Nat)
  | [] => none
  | b :: rest =>
    if b < 128 then some (b, rest)
    else
      match varintDec rest with
      | some (n, r) => some (b % 128 + 128 * n, r)
      | none => none

theorem varintDec_encF (fuel n : Nat) (hf : n ≤ fuel) (s : List Nat) :
    varintDec (varintEncF fuel n ++ s) = some (n, s) := by
  induction fuel generalizing n with
  | zero =>
    have hn : n = 0 := by omega
    subst hn
    simp [varintEncF, varintDec]
  | succ f ih =>
    by_cases h : n < 128
    · simp [varintEncF, varintDec, h]
    · have h1 : ¬ n % 128 + 128 < 128 := by omega
      have h2 : n / 128 ≤ f := by
        have h4 : n / 128 < n := Nat.div_lt_self (by omega) (by omega)
        omega
      simp only [varintEncF, if_neg h, List.cons_append, varintDec, if_neg h1,
        ih (n / 128) h2]
      have h3 : (n % 128 + 128) % 128 = n % 128 := by omega
      rw [h3, Nat.mod_add_div]

theorem varintDec_enc (n : Nat) (s : List Nat) :
    varintDec (varintEnc n ++ s) = some (n, s) :=
  varintDec_encF n n (Nat.le_refl n) s

/-- Protobuf field header: `fieldNum * 8 + wireType` as a varint. -/
def encTag (fieldNum wireType : Nat) : List Nat := varintEnc (fieldNum * 8 + wireType)

/-- A varint-typed field: header then the value. -/
def encVarintField (fieldNum n : Nat) : List Nat := encTag fieldNum 0 ++ varintEnc n

/-- A length-delimited field: header, byte length as varint, then the
bytes. -/
def encLenField (fieldNum : Nat) (s : List Nat) : List Nat :=
  encTag fieldNum 2 ++ varintEnc s.length ++ s

/-- Modelled from the spec: `proto.Marshal` of a `pb.Command` (the pb
package and its generated encoder are external to src).  The spec fixes
a stable protocol-buffer wire encoding of the fields operation, id, key,
value, return-address; we emit them deterministically in that order with
field numbers 1-5 (field numbers are not visible in src; any fixed
assignment gives the same stable, injective framing). -/
def marshal (c : Command) : List Nat :=
  encVarintField 1 c.op.toTag ++ encVarintField 2 c.id ++
    encLenField 3 c.key ++ encLenField 4 c.value ++ encLenField 5 c.ip

/-- Decode one varint field with the given expected header. -/
def decVarintField (fieldNum : Nat) (b : List Nat) : Option (Nat × List Nat) :=
  match varintDec b with
  | some (t, r) => if t = fieldNum * 8 then varintDec r else none
  | none => none

/-- Decode one length-delimited field with the given expected header. -/
def decLenField (fieldNum : Nat) (b : List Nat) : Option (List Nat × List Nat) :=
  match varintDec b with
  | some (t, r) =>
    if t = fieldNum * 8 + 2 then
      match varintDec r with
      | some (len, r2) =>
        if len ≤ r2.length then some (r2.take len, r2.drop len) else none
      | none => none
    else none
  | none => none

/-- Decode the operation enum value. -/
def decOp : Nat → Option Op
  | 0 => some Op.GET
  | 1 => some Op.SET
  | _ => none

/-- Inverse of `marshal`: parse the five fields in order and require the
buffer to be consumed exactly. -/
def unmarshal (b : List Nat) : Option Command :=
  match decVarintField 1 b with
  | none => none
  | some (opn, b1) =>
    match decVarintField 2 b1 with
    | none => none
    | some (idn, b2) =>
      match decLenField 3 b2 with
      | none => none
      | some (k, b3) =>
        match decLenField 4 b3 with
        | none => none
        | some (v, b4) =>
          match decLenField 5 b4 with
          | none => none
          | some (ipv, b5) =>
            if b5 = [] then
              match decOp opn with
              | some o => some { op := o, id := idn, key := k, value := v, ip := ipv }
              | none => none
            else none

theorem decVarintField_enc (fieldNum n : Nat) (s : List Nat) :
    decVarintField fieldNum (encVarintField fieldNum n ++ s) = some (n, s) := by
  unfold decVarintField encVarintField encTag
  rw [List.append_assoc, varintDec_enc]
  simp [varintDec_enc]

theorem decLenField_enc (fieldNum : Nat) (p s : List Nat) :
    decLenField fieldNum (encLenField fieldNum p ++ s) = some (p, s) := by
  unfold decLenField encLenField encTag
  rw [List.append_assoc, List.append_assoc, varintDec_enc]
  simp only [Nat.add_right_cancel_iff, if_pos rfl, varintDec_enc]
  have h : p.length ≤ (p ++ s).length := by simp
  simp [h, List.take_left, List.drop_left]

theorem unmarshal_marshal (c : Command) :
    unmarshal (marshal c) = some c := by
  obtain ⟨o, i, k, v, p⟩ := c
  have h5 : encLenField 5 p = encLenField 5 p ++ [] := by simp
  unfold unmarshal marshal
  rw [h5, List.append_assoc, List.append_assoc, List.append_assoc]
  simp only [decVarintField_enc, decLenField_enc]
  cases o <;> simp [Op.toTag, decOp]

/-! ## Replica session: `Info.Connect` (kvbeelog client)

`Connect` allocates `Svrs := make([]net.Conn, client.Rep)` and
`reader := make([]*bufio.Reader, client.Rep)`, then iterates
`for i, v := range client.SvrIps`, assigning `client.Svrs[i], err =
net.Dial("tcp", v)`.  Go evaluates the dial before carrying out the
assignment, so when `i` is outside the slice bounds the socket (if the
dial succeeded) is opened and then the assignment raises a runtime
index-out-of-range panic.  A dial error inside bounds is returned
immediately; sockets opened by earlier iterations are never closed by
`Connect` itself.  The dial outcome of the `i`-th iteration is the
oracle `d i`. -/

/-- Outcome of `Info.Connect`: `oob os` is the runtime
index-out-of-range panic (with `os` the sockets opened during the
attempt and still open), `err os` the immediately returned dial error
(again with the still-open sockets), `ok cs` the success case with the
connections in address-list order. -/
inductive ConnectRes where
  | oob : List String → ConnectRes
  | err : List String → ConnectRes
  | ok : List String → ConnectRes
deriving DecidableEq

/-- Whether the run ended in the index-out-of-range panic. -/
def ConnectRes.isOob : ConnectRes → Bool
  | .oob _ => true
  | _ => false

/-- The dial loop of `Info.Connect`, from loop position `i` over the
remaining addresses.  `rep` is `client.Rep` (the allocated slice
length), `d` the dial-outcome oracle. -/
def connectFrom (rep : Nat) (d : Nat → Bool) : Nat → List String → ConnectRes
  | _, [] => .ok []
  | i, v :: rest =>
    if d i then
      if i < rep then
        match connectFrom rep d (i + 1) rest with
        | .ok cs => .ok (v :: cs)
        | .err os => .err (v :: os)
        | .oob os => .oob (v :: os)
      else .oob [v]
    else
      if i < rep then .err [] else .oob []

/-- `Info.Connect` (src/unnamed/part_002 lines 52-65). -/
def connectInfo (rep : Nat) (ips : List String) (d : Nat → Bool) : ConnectRes :=
  connectFrom rep d 0 ips

theorem connectFrom_err (rep : Nat) (d : Nat → Bool) (j : Nat)
    (ips : List String) (i : Nat)
    (hlen : i + ips.length ≤ rep) (hj : j < ips.length)
    (hok : ∀ k, k < j → d (i + k) = true) (hfail : d (i + j) = false) :
    connectFrom rep d i ips = .err (ips.take j) := by
  induction ips generalizing i j with
  | nil => simp at hj
  | cons v rest ih =>
    cases j with
    | zero =>
      have hd : d i = false := by simpa using hfail
      have hi : i < rep := by simp at hlen; omega
      simp [connectFrom, hd, hi]
    | succ j' =>
      have hd : d i = true := by simpa using hok 0 (by omega)
      have hi : i < rep := by simp at hlen; omega
      have hrec : connectFrom rep d (i + 1) rest = .err (rest.take j') := by
        refine ih j' (i + 1) (by simp at hlen ⊢; omega) (by simp at hj; omega)
          (fun k hk => ?_) (by
            have := hfail
            have he : i + 1 + j' = i + (j' + 1) := by omega
            rw [he]
            exact this)
        have := hok (k + 1) (by omega)
        have he : i + 1 + k = i + (k + 1) := by omega
        rw [he]
        exact this
      simp [connectFrom, hd, hi, hrec]

/-- Claim C6: if every dial before position `j` succeeds and the dial at
position `j` fails, `Info.Connect` returns the dial error immediately
and the sockets opened during the attempt (the first `j` addresses)
remain open: the returned session state records exactly those `j` open
sockets, and `Connect` contains no close of them (the model has no
closing transition). -/
theorem connect_err_leaves_sockets_open (rep : Nat) (ips : List String)
    (d : Nat → Bool) (j : Nat)
    (hlen : ips.length ≤ rep) (hj : j < ips.length)
    (hok : ∀ k, k < j → d k = true) (hfail : d j = false) :
    connectInfo rep ips d = .err (ips.take j) := by
  unfold connectInfo
  exact connectFrom_err rep d j ips 0 (by omega) hj
    (fun k hk => by simpa using hok k hk) (by simpa using hfail)

/-- Witness for `connect_err_leaves_sockets_open`: three addresses, the
second dial fails, the first socket is reported open. -/
theorem connect_err_witness :
    connectInfo 3 ["a", "b", "c"] (fun i => decide (i < 1)) = .err ["a"] :=
  connect_err_leaves_sockets_open 3 ["a", "b", "c"] (fun i => decide (i < 1)) 1
    (by decide) (by decide) (fun k hk => decide_eq_true hk) (by decide)

theorem connectFrom_ok (rep : Nat) (d : Nat → Bool) (ips : List String)
    (i : Nat) (hlen : i + ips.length ≤ rep)
    (hok : ∀ k, i ≤ k → k < i + ips.length → d k = true) :
    connectFrom rep d i ips = .ok ips := by
  induction ips generalizing i with
  | nil => simp [connectFrom]
  | cons v rest ih =>
    have hd : d i = true := hok i (by omega) (by simp)
    have hi : i < rep := by simp at hlen; omega
    have hrec : connectFrom rep d (i + 1) rest = .ok rest := by
      refine ih (i + 1) (by simp at hlen ⊢; omega) (fun k h1 h2 => ?_)
      exact hok k (by omega) (by simp at h2 ⊢; omega)
    simp [connectFrom, hd, hi, hrec]

theorem connectFrom_no_oob (rep : Nat) (d : Nat → Bool) (ips : List String)
    (i : Nat) (hlen : i + ips.length ≤ rep) :
    (connectFrom rep d i ips).isOob = false := by
  induction ips generalizing i with
  | nil => simp [connectFrom, ConnectRes.isOob]
  | cons v rest ih =>
    have hi : i < rep := by simp at hlen; omega
    have hrec := ih (i + 1) (by simp at hlen ⊢; omega)
    by_cases hd : d i
    · simp only [connectFrom, hd, if_pos, if_pos hi]
      cases h : connectFrom rep d (i + 1) rest <;>
        simp_all [ConnectRes.isOob]
    · simp [connectFrom, hd, hi, ConnectRes.isOob]

theorem connectFrom_oob_of_long (rep : Nat) (ips : List String) (i : Nat)
    (hi : i ≤ rep) (hlen : rep < i + ips.length) :
    (connectFrom rep (fun _ => true) i ips).isOob = true := by
  induction ips generalizing i with
  | nil => simp at hlen; omega
  | cons v rest ih =>
    by_cases hb : i < rep
    · have hrec := ih (i + 1) (by omega) (by simp at hlen ⊢; omega)
      simp only [connectFrom, if_pos hb, if_pos]
      cases h : connectFrom rep (fun _ => true) (i + 1) rest <;>
        simp_all [ConnectRes.isOob]
    · have hb2 : i = rep := by omega
      simp [connectFrom, hb, ConnectRes.isOob]

/-- Claim C10: `Connect` allocates its two slices with length `Rep` but
indexes them by the position of each address in `SvrIps`; for every dial
oracle it is free of the index-out-of-range panic exactly when
`len(SvrIps) ≤ Rep` (with more addresses than `Rep`, all-successful
dials reach index `Rep` and panic), and under that precondition a run in
which every listed dial succeeds returns exactly one open connection per
listed address, in list order. -/
theorem connect_bounds_and_success (rep : Nat) (ips : List String) :
    ((ips.length ≤ rep) ↔ ∀ d, (connectInfo rep ips d).isOob = false) ∧
    (∀ d, ips.length ≤ rep → (∀ k, k < ips.length → d k = true) →
      connectInfo rep ips d = .ok ips) := by
  constructor
  · constructor
    · intro hlen d
      exact connectFrom_no_oob rep d ips 0 (by omega)
    · intro h
      by_contra hlen
      have := h (fun _ => true)
      rw [connectInfo, connectFrom_oob_of_long rep ips 0 (by omega) (by omega)]
        at this
      simp at this
  · intro d hlen hok
    exact connectFrom_ok rep d ips 0 (by omega)
      (fun k h1 h2 => hok k (by omega))

/-- Witness for `connect_bounds_and_success`: two addresses, capacity
two, all dials succeed. -/
theorem connect_bounds_witness :
    connectInfo 2 ["a", "b"] (fun _ => true) = .ok ["a", "b"] :=
  (connect_bounds_and_success 2 ["a", "b"]).2 (fun _ => true) (by decide)
    (fun k hk => rfl)

/-! ## Replica session: `Info.BroadcastProtobuf` and `Info.ReadUDP` -/

/-- Sets the session reply address into the command:
`message.Ip = clientUDPPort`. -/
def setIp (c : Command) (port : List Nat) : Command := { c with ip := port }

/-- The write loop of `BroadcastProtobuf` over connections `i, i+1, ...`
with `n` connections remaining; `w` is the per-connection write-outcome
oracle.  Returns the frames delivered, one per connection in order, and
whether every write succeeded (`false`: the write error was returned
immediately and the loop stopped). -/
def bcastLoop (frame : List Nat) (w : Nat → Bool) : Nat → Nat → List (List Nat) × Bool
  | _, 0 => ([], true)
  | i, n + 1 =>
    if w i then
      let r := bcastLoop frame w (i + 1) n
      (frame :: r.1, r.2)
    else ([], false)

/-- `Info.BroadcastProtobuf` (src/unnamed/part_002 lines 106-121): the
reply address is set into the command, the command is serialized once
with a trailing newline byte, and the identical frame is written to each
of the `n` connections in order. -/
def broadcastProtobuf (cmd : Command) (port : List Nat) (n : Nat)
    (w : Nat → Bool) : List (List Nat) × Bool :=
  bcastLoop (marshal (setIp cmd port) ++ [10]) w 0 n

theorem bcastLoop_ok (frame : List Nat) (w : Nat → Bool) (i n : Nat)
    (hok : ∀ k, i ≤ k → k < i + n → w k = true) :
    bcastLoop frame w i n = (List.replicate n frame, true) := by
  induction n generalizing i with
  | zero => simp [bcastLoop]
  | succ m ih =>
    have hd : w i = true := hok i (by omega) (by omega)
    have hrec := ih (i + 1) (fun k h1 h2 => hok k (by omega) (by omega))
    simp [bcastLoop, hd, hrec, List.replicate_succ]

theorem bcastLoop_fail (frame : List Nat) (w : Nat → Bool) (i n j : Nat)
    (hj : j < n) (hok : ∀ k, k < j → w (i + k) = true)
    (hfail : w (i + j) = false) :
    bcastLoop frame w i n = (List.replicate j frame, false) := by
  induction n generalizing i j with
  | zero => omega
  | succ m ih =>
    cases j with
    | zero =>
      have hd : w i = false := by simpa using hfail
      simp [bcastLoop, hd]
    | succ j' =>
      have hd : w i = true := by simpa using hok 0 (by omega)
      have hrec : bcastLoop frame w (i + 1) m = (List.replicate j' frame, false) := by
        refine ih (i + 1) j' (by omega) (fun k hk => ?_) (by
          have := hfail
          have he : i + 1 + j' = i + (j' + 1) := by omega
          rw [he]
          exact this)
        have := hok (k + 1) (by omega)
        have he : i + 1 + k = i + (k + 1) := by omega
        rw [he]
        exact this
      simp [bcastLoop, hd, hrec, List.replicate_succ]

/-- Claim C7: `BroadcastProtobuf` stores the session reply address into
the command before encoding it, then writes the identical encoded frame
(the serialized command plus a newline byte) to every open connection in
configured order; when every write succeeds all `n` connections receive
that frame, and when the write to connection `j` is the first to fail
the error is returned immediately with the frame already delivered to
connections `0..j-1` and not rolled back. -/
theorem broadcast_identical_frames (cmd : Command) (port : List Nat)
    (n : Nat) (w : Nat → Bool) :
    ((∀ k, k < n → w k = true) →
      broadcastProtobuf cmd port n w =
        (List.replicate n (marshal (setIp cmd port) ++ [10]), true)) ∧
    (∀ j, j < n → (∀ k, k < j → w k = true) → w j = false →
      broadcastProtobuf cmd port n w =
        (List.replicate j (marshal (setIp cmd port) ++ [10]), false)) := by
  constructor
  · intro hok
    exact bcastLoop_ok _ w 0 n (fun k h1 h2 => hok k (by omega))
  · intro j hj hok hfail
    exact bcastLoop_fail _ w 0 n j hj
      (fun k hk => by simpa using hok k hk) (by simpa using hfail)

/-- Witness for `broadcast_identical_frames`: two connections, first
write succeeds, second fails; the frame stays delivered to connection
0. -/
theorem broadcast_witness :
    broadcastProtobuf ⟨Op.SET, 0, [107, 49], [118, 49], []⟩ [57] 2
        (fun i => decide (i < 1)) =
      (List.replicate 1
        (marshal (setIp ⟨Op.SET, 0, [107, 49], [118, 49], []⟩ [57]) ++ [10]),
        false) :=
  (broadcast_identical_frames ⟨Op.SET, 0, [107, 49], [118, 49], []⟩ [57] 2
    (fun i => decide (i < 1))).2 1 (by decide)
    (fun k hk => decide_eq_true hk) (by decide)

/-- `Info.ReadUDP` (src/unnamed/part_002 lines 124-131):
`data := make([]byte, 128)` (zero filled), `ReadFromUDP(data)` copies
the datagram payload into the front of the buffer, and the function
returns `string(data)` — the whole 128-byte buffer, not the payload
alone. -/
def readUDP (dgram : List Nat) : List Nat :=
  let buf := dgram.take 128
  buf ++ List.replicate (128 - buf.length) 0

/-! ## kvbeelog driver: sampling, latency and the Read/Insert operations

`beelogKV` (src/db/kvbeelog/db.go).  `bk.out` is whether a latency
output file is configured, `bk.maxC` is
`int(math.Ceil(float64(ths) / watcherRatio))` computed once in
`beelogKVCreator.Create`, and `checkLat()` draws
`rand.Intn(measureChance) == 0`.  Per-operation oracles (the draw, the
per-connection write outcomes, the datagram payload, the wall-clock
durations of the broadcast, the reply read and the think-time sleep) are
gathered in `OpEnv`; the monotonic clock is an explicit `Nat`
counter. -/

/-- `int(math.Ceil(float64(ths) / k))` from `beelogKVCreator.Create`
(src/db/kvbeelog/db.go lines 204-229, with `k = watcherRatio = 3`).
For naturals in the float64-exact range `math.Ceil` of the quotient is
the integer ceiling, embedded as `(ths + k - 1) / k`. -/
def maxC (ths k : Nat) : Nat := (ths + k - 1) / k

/-- Per-operation oracle environment for one driver operation. -/
structure OpEnv where
  draw : Bool
  nConns : Nat
  wOk : Nat → Bool
  port : List Nat
  dgram : List Nat
  broadcastCost : Nat
  readCost : Nat
  thinkCost : Nat

/-- Result of `beelogKV.sendProtoBuff`: final clock, latency lines
appended to the output file, frames delivered to the replica
connections, and whether the call returned an error. -/
structure SendOut where
  clock : Nat
  lats : List Nat
  frames : List (List Nat)
  fail : Bool
deriving DecidableEq

/-- `beelogKV.sendProtoBuff` (src/db/kvbeelog/db.go lines 185-194): if
`bk.out && id < bk.maxC && checkLat()`, the broadcast is wrapped in
`st := time.Now()` / `time.Since(st)` and the measured duration is
appended by `recordLat`; a broadcast error is returned before any
latency is recorded.  Otherwise the command is broadcast untimed. -/
def sendProtoBuffM (out : Bool) (mx id : Nat) (cmd : Command) (e : OpEnv)
    (c0 : Nat) : SendOut :=
  let bc := broadcastProtobuf cmd e.port e.nConns e.wOk
  if out && decide (id < mx) && e.draw then
    let st := c0
    let c1 := c0 + e.broadcastCost
    if bc.2 then { clock := c1, lats := [c1 - st], frames := bc.1, fail := false }
    else { clock := c1, lats := [], frames := bc.1, fail := true }
  else { clock := c0 + e.broadcastCost, lats := [], frames := bc.1, fail := !bc.2 }

/-- Result of `beelogKV.Read`: final clock, latency lines, frames sent,
the value returned in the result map at the requested key (`none` on
error), and the clock instant at which `ReadUDP` returned. -/
structure ReadOut where
  clock : Nat
  lats : List Nat
  frames : List (List Nat)
  res : Option (List Nat)
  replyAt : Option Nat
deriving DecidableEq

/-- `beelogKV.Read` (src/db/kvbeelog/db.go lines 60-87): build a `GET`
command, send it through `sendProtoBuff`, then block in
`bk.clients[id].ReadUDP()` for the reply, sleep up to `thinkTime`, and
return the map binding `key` to the bytes of the reply string. -/
def beelogReadM (out : Bool) (mx id : Nat) (key : List Nat) (e : OpEnv)
    (c0 : Nat) : ReadOut :=
  let cmd : Command := { op := Op.GET, id := 0, key := key, value := [], ip := [] }
  let s := sendProtoBuffM out mx id cmd e c0
  if s.fail then
    { clock := s.clock, lats := s.lats, frames := s.frames, res := none,
      replyAt := none }
  else
    let rAt := s.clock + e.readCost
    { clock := rAt + e.thinkCost, lats := s.lats, frames := s.frames,
      res := some (readUDP e.dgram), replyAt := some rAt }

/-- `var val []byte; for k := range values { val = values[k]; break }`:
one value taken from the values map (Go map iteration order is
arbitrary; the association list carries the iteration order, so the
loop takes its head). -/
def headValue (values : List (List Nat × List Nat)) : List Nat :=
  match values with
  | [] => []
  | (_, v) :: _ => v

/-- Result of `beelogKV.Insert`: final clock, latency lines, frames
sent, success flag, and the clock instant at which `ReadUDP`
returned. -/
structure InsOut where
  clock : Nat
  lats : List Nat
  frames : List (List Nat)
  ok : Bool
  replyAt : Option Nat
deriving DecidableEq

/-- `beelogKV.Insert` (src/db/kvbeelog/db.go lines 91-122): build a
`SET` command from the key and one value of the map, send it through
`sendProtoBuff`, consume the reply datagram, sleep up to `thinkTime`. -/
def beelogInsertM (out : Bool) (mx id : Nat) (key : List Nat)
    (values : List (List Nat × List Nat)) (e : OpEnv) (c0 : Nat) : InsOut :=
  let cmd : Command :=
    { op := Op.SET, id := 0, key := key, value := headValue values, ip := [] }
  let s := sendProtoBuffM out mx id cmd e c0
  if s.fail then ⟨s.clock, s.lats, s.frames, false, none⟩
  else
    let rAt := s.clock + e.readCost
    ⟨rAt + e.thinkCost, s.lats, s.frames, true, some rAt⟩

/-- `beelogKV.Update` (src/db/kvbeelog/db.go lines 126-130): the body is
exactly `return bk.Insert(ctx, table, key, values)`. -/
def beelogUpdateM (out : Bool) (mx id : Nat) (key : List Nat)
    (values : List (List Nat × List Nat)) (e : OpEnv) (c0 : Nat) : InsOut :=
  beelogInsertM out mx id key values e c0

theorem broadcastProtobuf_all_ok (cmd : Command) (port : List Nat) (n : Nat)
    (w : Nat → Bool) (hw : ∀ k, k < n → w k = true) :
    broadcastProtobuf cmd port n w =
      (List.replicate n (marshal (setIp cmd port) ++ [10]), true) :=
  bcastLoop_ok _ w 0 n fun k _ h2 => hw k (by omega)

/-- Claim C2: with latency output enabled, a worker of index `i` can
produce a latency line through `sendProtoBuff` exactly when
`i < maxC N K` (the ceiling of workers over the watcher ratio, as
computed by `beelogKVCreator.Create`); a worker at or above that bound
never appends a latency line, whatever the random draw, the write
outcomes and the costs; and `i < maxC N K` is precisely the ceiling
bound `i * K < N` of the spec formula. -/
theorem watcher_eligibility (N K i : Nat) (hK : 0 < K) :
    ((∃ cmd e c0, (sendProtoBuffM true (maxC N K) i cmd e c0).lats ≠ []) ↔
      i < maxC N K) ∧
    (maxC N K ≤ i → ∀ out cmd e c0,
      (sendProtoBuffM out (maxC N K) i cmd e c0).lats = []) ∧
    (i < maxC N K ↔ i * K < N) := by
  have hnever : maxC N K ≤ i → ∀ out cmd e c0,
      (sendProtoBuffM out (maxC N K) i cmd e c0).lats = [] := by
    intro hle out cmd e c0
    have hd : decide (i < maxC N K) = false := by
      simp [Nat.not_lt.mpr hle]
    unfold sendProtoBuffM
    rw [hd]
    simp
  refine ⟨⟨fun hex => ?_, fun hlt => ?_⟩, hnever, ?_⟩
  · by_contra hge
    obtain ⟨cmd, e, c0, hne⟩ := hex
    exact hne (hnever (Nat.not_lt.mp hge) true cmd e c0)
  · refine ⟨⟨Op.GET, 0, [], [], []⟩,
      ⟨true, 0, fun _ => true, [], [], 0, 0, 0⟩, 0, ?_⟩
    have hb := broadcastProtobuf_all_ok ⟨Op.GET, 0, [], [], []⟩ [] 0
      (fun _ => true) (fun k hk => by omega)
    unfold sendProtoBuffM
    simp [hb, hlt]
  · unfold maxC
    rw [Nat.lt_iff_add_one_le, Nat.le_div_iff_mul_le hK, Nat.succ_mul]
    omega

/-- Witness for `watcher_eligibility`: with `N = 3` workers and ratio
`K = 3`, worker `2` is not a watcher and records nothing. -/
theorem watcher_eligibility_witness :
    (sendProtoBuffM true (maxC 3 3) 2 ⟨Op.GET, 0, [107], [], []⟩
      ⟨true, 1, fun _ => true, [57], [79, 75], 1, 1, 0⟩ 0).lats = [] :=
  (watcher_eligibility 3 3 2 (by decide)).2.1 (by decide) true
    ⟨Op.GET, 0, [107], [], []⟩ ⟨true, 1, fun _ => true, [57], [79, 75], 1, 1, 0⟩ 0

/-- Concrete environment for the C3 counterexample: the replica stub
answers the two-byte datagram "OK". -/
def c3Env : OpEnv := ⟨false, 0, fun _ => true, [], [79, 75], 0, 0, 0⟩

set_option maxRecDepth 4000 in
/-- Claim C3, counterexample.  `ReadUDP` discards the byte count
returned by `ReadFromUDP` and converts the entire fixed-size 128-byte
buffer, so a stub reply "OK" (bytes `[79, 75]`) makes `beelogKV.Read`
hand back the padded 128-byte buffer, not the two-byte string "OK": the
returned payload differs from the reply. -/
theorem read_ok_reply_not_trimmed :
    (beelogReadM false 0 0 [107, 49] c3Env 0).res = some (readUDP [79, 75]) ∧
    readUDP [79, 75] ≠ [79, 75] ∧
    (readUDP [79, 75]).length = 128 := by
  decide

/-- Claim C3, amended.  An operation answered over the reply channel
returns the whole fixed-size 128-byte datagram buffer: the
application-level reply followed by zero padding.  The reply is a prefix
of what the caller receives, but the buffer is not trimmed to the reply
before being handed back. -/
theorem read_returns_full_buffer (out : Bool) (mx id : Nat) (key : List Nat)
    (e : OpEnv) (c0 : Nat) (hlen : e.dgram.length ≤ 128)
    (hw : ∀ k, k < e.nConns → e.wOk k = true) :
    (beelogReadM out mx id key e c0).res =
      some (e.dgram ++ List.replicate (128 - e.dgram.length) 0) ∧
    (readUDP e.dgram).length = 128 ∧
    e.dgram <+: readUDP e.dgram := by
  have hb := broadcastProtobuf_all_ok
    { op := Op.GET, id := 0, key := key, value := [], ip := [] } e.port
    e.nConns e.wOk hw
  have ht : e.dgram.take 128 = e.dgram := List.take_of_length_le hlen
  have hr : readUDP e.dgram = e.dgram ++ List.replicate (128 - e.dgram.length) 0 := by
    unfold readUDP
    rw [ht]
  refine ⟨?_, ?_, ?_⟩
  · by_cases hs : (out && decide (id < mx) && e.draw) = true <;>
      simp [beelogReadM, sendProtoBuffM, hb, hr, hs]
  · rw [hr]
    simp
    omega
  · rw [hr]
    exact List.prefix_append _ _

/-- Witness for `read_returns_full_buffer` on the stub reply "OK". -/
theorem read_returns_full_buffer_witness :
    (beelogReadM false 0 0 [107, 49] c3Env 0).res =
      some ([79, 75] ++ List.replicate 126 0) :=
  (read_returns_full_buffer false 0 0 [107, 49] c3Env 0 (by decide)
    (fun k hk => by simp [c3Env] at hk)).1

/-- Concrete environment for the C4 counterexample: sampling selected,
broadcast takes 1 clock unit and the reply read takes 1 more. -/
def c4Env : OpEnv := ⟨true, 0, fun _ => true, [], [], 1, 1, 0⟩

/-- Claim C4, counterexample.  In `sendProtoBuff` the clock measurement
`st := time.Now()` / `time.Since(st)` closes before `ReadUDP` is even
called from `beelogKV.Read`, so the recorded duration covers only the
broadcast: with a broadcast costing 1 unit and the reply read costing 1
more, the operation issued at clock 0 receives its reply at clock 2 but
records the line `1`, not the round-trip `2 - 0`. -/
theorem latency_excludes_reply_counterexample :
    (beelogReadM true 1 0 [107] c4Env 0).lats = [1] ∧
    (beelogReadM true 1 0 [107] c4Env 0).replyAt = some 2 ∧
    (beelogReadM true 1 0 [107] c4Env 0).lats ≠ [2 - 0] := by
  decide

/-- Claim C4, amended.  When a watcher worker's operation is selected
for sampling (and the broadcast succeeds), the monotonic clock
measurement wraps only the command broadcast — the reply arrives after
the timer has stopped — and that broadcast duration is the value
forwarded to the latency recorder; unselected operations execute
untimed. -/
theorem sampled_op_times_broadcast_only (out : Bool) (mx id : Nat)
    (key : List Nat) (e : OpEnv) (c0 : Nat)
    (hw : ∀ k, k < e.nConns → e.wOk k = true) :
    ((out && decide (id < mx) && e.draw) = true →
      (beelogReadM out mx id key e c0).lats = [e.broadcastCost] ∧
      (beelogReadM out mx id key e c0).replyAt =
        some (c0 + e.broadcastCost + e.readCost)) ∧
    ((out && decide (id < mx) && e.draw) = false →
      (beelogReadM out mx id key e c0).lats = []) := by
  have hb := broadcastProtobuf_all_ok
    { op := Op.GET, id := 0, key := key, value := [], ip := [] } e.port
    e.nConns e.wOk hw
  constructor
  · intro hs
    constructor <;> simp [beelogReadM, sendProtoBuffM, hb, hs]
  · intro hs
    simp [beelogReadM, sendProtoBuffM, hb, hs]

/-- Witness for `sampled_op_times_broadcast_only` in the sampled
case. -/
theorem sampled_op_times_broadcast_only_witness :
    (beelogReadM true 1 0 [107] c4Env 0).lats = [1] ∧
    (beelogReadM true 1 0 [107] c4Env 0).replyAt = some 2 :=
  ((sampled_op_times_broadcast_only true 1 0 [107] c4Env 0
    (fun k hk => by simp [c4Env] at hk)).1 (by decide))

/-! ## localkv driver: sequential command logging

`localKV` (db/localkv/db.go, second revision).  In sequential
("traditional") mode `logCommand` stamps the command with
`cmd.Id = atomic.AddUint64(&lk.index, 1)`, writes the 4-byte big-endian
`int32` length of the serialized command with `binary.Write`, appends
the serialized bytes to the log file, and bumps the `uint32` throughput
counter.  The per-call oracle `wOk` is whether the serialize/write steps
succeed; a failed call leaves the log unchanged in the model (the id had
already been taken and the index already advanced, exactly as in the
code where the `atomic.AddUint64` precedes every fallible step). -/

/-- Mutable `localKV` state: the `uint64` log-sequence counter
`lk.index`, the `uint32` operation counter `lk.count` and the bytes
appended to the log file so far. -/
structure LKState where
  index : Nat
  count : Nat
  log : List Nat
deriving DecidableEq

/-- `localKV` state at startup: both counters zero, log file truncated
to empty (`O_CREATE|O_TRUNC|...`). -/
def initLK : LKState := ⟨0, 0, []⟩

/-- `binary.Write(lk.logFile, binary.BigEndian, int32(len(rawCmd)))`:
the four big-endian bytes of the length, taken modulo `2 ^ 32` as the
`int32` conversion does. -/
def int32BE (n : Nat) : List Nat :=
  [n % 2 ^ 32 / 2 ^ 24, n % 2 ^ 32 / 2 ^ 16 % 256,
    n % 2 ^ 32 / 2 ^ 8 % 256, n % 2 ^ 32 % 256]

/-- Read one 4-byte big-endian length from the front of a byte list (a
log reader's frame header step). -/
def readInt32BE : List Nat → Option (Nat × List Nat)
  | b0 :: b1 :: b2 :: b3 :: rest =>
    some (((b0 * 256 + b1) * 256 + b2) * 256 + b3, rest)
  | _ => none

theorem readInt32BE_int32BE (n : Nat) (h : n < 2 ^ 32) (s : List Nat) :
    readInt32BE (int32BE n ++ s) = some (n, s) := by
  unfold int32BE readInt32BE
  simp only [List.cons_append, List.nil_append]
  have he : ((n % 2 ^ 32 / 2 ^ 24 * 256 + n % 2 ^ 32 / 2 ^ 16 % 256) * 256 +
      n % 2 ^ 32 / 2 ^ 8 % 256) * 256 + n % 2 ^ 32 % 256 = n := by
    omega
  rw [he]

/-- `localKV.logCommand` (db/localkv/db.go lines 297-324), sequential
mode: stamp the next `uint64` sequence id, then (when the
serialize/write steps succeed) append the 4-byte big-endian length
prefix and the serialized command to the log and bump the throughput
counter.  Returns the new state, the stamped command and the success
flag. -/
def logCommand (st : LKState) (c : Command) (wOk : Bool) :
    LKState × Command × Bool :=
  let idv := (st.index + 1) % 2 ^ 64
  let c2 := { c with id := idv }
  if wOk then
    let raw := marshal c2
    (⟨idv, (st.count + 1) % 2 ^ 32, st.log ++ int32BE raw.length ++ raw⟩,
      c2, true)
  else (⟨idv, st.count, st.log⟩, c2, false)

/-- A sequence of `logCommand` calls in one process; returns the final
state and the stamped commands in call order. -/
def logAll (st : LKState) : List (Command × Bool) → LKState × List Command
  | [] => (st, [])
  | (c, w) :: rest =>
    let r := logCommand st c w
    let rr := logAll r.1 rest
    (rr.1, r.2.1 :: rr.2)

/-- Specification-side stamping: the commands with ids `k, k+1, ...`
assigned in order. -/
def stampSeq : List Command → Nat → List Command
  | [], _ => []
  | c :: rest, k => { c with id := k } :: stampSeq rest (k + 1)

/-- Frame splitting of the sequential log with explicit fuel (each
record consumes at least four bytes, so `fuel ≥` total length always
suffices): read a 4-byte big-endian length, slice that many payload
bytes, repeat until the log is exhausted. -/
def frameSplitF : Nat → List Nat → Option (List (List Nat))
  | _, [] => some []
  | 0, _ => none
  | fuel + 1, b0 :: b1 :: b2 :: b3 :: rest =>
    let n := ((b0 * 256 + b1) * 256 + b2) * 256 + b3
    if n ≤ rest.length then
      match frameSplitF fuel (rest.drop n) with
      | some fs => some (rest.take n :: fs)
      | none => none
    else none
  | _ + 1, _ => none

/-- Re-reading the framed log: split `[4-byte big-endian length] ++
[payload]` records until the bytes are exhausted. -/
def frameSplit (b : List Nat) : Option (List (List Nat)) :=
  frameSplitF b.length b

theorem frameSplitF_records (ps : List (List Nat)) (fuel : Nat)
    (hp : ∀ p ∈ ps, p.length < 2 ^ 32)
    (hlen : ((ps.map fun p => int32BE p.length ++ p).flatten).length ≤ fuel) :
    frameSplitF fuel ((ps.map fun p => int32BE p.length ++ p).flatten) =
      some ps := by
  induction ps generalizing fuel with
  | nil => cases fuel <;> simp [frameSplitF]
  | cons p rest ih =>
    have hp0 : p.length < 2 ^ 32 := hp p (by simp)
    have hrest : ∀ q ∈ rest, q.length < 2 ^ 32 := fun q hq => hp q (by simp [hq])
    have hflat : ((p :: rest).map fun q => int32BE q.length ++ q).flatten =
        (p.length % 2 ^ 32 / 2 ^ 24) :: (p.length % 2 ^ 32 / 2 ^ 16 % 256) ::
          (p.length % 2 ^ 32 / 2 ^ 8 % 256) :: (p.length % 2 ^ 32 % 256) ::
          (p ++ ((rest.map fun q => int32BE q.length ++ q).flatten)) := by
      simp [int32BE]
    rw [hflat] at hlen ⊢
    cases fuel with
    | zero => simp at hlen
    | succ f =>
      have hn : ((p.length % 2 ^ 32 / 2 ^ 24 * 256 +
          p.length % 2 ^ 32 / 2 ^ 16 % 256) * 256 +
          p.length % 2 ^ 32 / 2 ^ 8 % 256) * 256 + p.length % 2 ^ 32 % 256 =
          p.length := by omega
      have hle : p.length ≤
          (p ++ (rest.map fun q => int32BE q.length ++ q).flatten).length := by
        simp
      have hrec : frameSplitF f
          ((rest.map fun q => int32BE q.length ++ q).flatten) = some rest := by
        refine ih f hrest ?_
        simp at hlen ⊢
        omega
      simp only [frameSplitF, hn, hle, if_true, List.drop_left, List.take_left,
        hrec]

/-- The stamped command list carries exactly the ids `k, ..., k+n-1`. -/
theorem stampSeq_ids (cs : List Command) (k : Nat) :
    (stampSeq cs k).map Command.id = List.range' k cs.length := by
  induction cs generalizing k with
  | nil => simp [stampSeq]
  | cons c rest ih => simp [stampSeq, List.range'_succ, ih]

/-- The state after one successful `logCommand` call. -/
def nextLK (st : LKState) (c : Command) : LKState :=
  ⟨(st.index + 1) % 2 ^ 64, (st.count + 1) % 2 ^ 32,
    st.log ++ int32BE (marshal { c with id := (st.index + 1) % 2 ^ 64 }).length ++
      marshal { c with id := (st.index + 1) % 2 ^ 64 }⟩

theorem logAll_cons_true (st : LKState) (c : Command) (l : List (Command × Bool)) :
    logAll st ((c, true) :: l) =
      ((logAll (nextLK st c) l).1,
        { c with id := (st.index + 1) % 2 ^ 64 } :: (logAll (nextLK st c) l).2) :=
  rfl

theorem logAll_ok (cs : List Command) (st : LKState)
    (h : st.index + cs.length < 2 ^ 64) :
    (logAll st (cs.map fun c => (c, true))).2 = stampSeq cs (st.index + 1) ∧
    (logAll st (cs.map fun c => (c, true))).1.log =
      st.log ++ ((stampSeq cs (st.index + 1)).map
        fun c => int32BE (marshal c).length ++ marshal c).flatten := by
  induction cs generalizing st with
  | nil => simp [logAll, stampSeq]
  | cons c rest ih =>
    have hidx : (st.index + 1) % 2 ^ 64 = st.index + 1 :=
      Nat.mod_eq_of_lt (by simp at h; omega)
    have hix2 : (nextLK st c).index = st.index + 1 := by
      simp only [nextLK]
      exact hidx
    have hlog : (nextLK st c).log =
        st.log ++ int32BE (marshal { c with id := st.index + 1 }).length ++
          marshal { c with id := st.index + 1 } := by
      simp only [nextLK, hidx]
    have hrec := ih (nextLK st c) (by rw [hix2]; simp at h; omega)
    rw [hix2] at hrec
    rw [List.map_cons, logAll_cons_true, hidx]
    constructor
    · simp only [stampSeq, hrec.1]
    · simp only [stampSeq, List.map_cons, List.flatten_cons]
      rw [hrec.2, hlog]
      simp [List.append_assoc]

/-- Claim C5: in sequential logging mode every command is stamped with
the next value of the shared log-sequence counter (ids `1..N` in call
order), appended as a 4-byte big-endian length prefix followed by the
encoded command, and re-reading the framed log reproduces the same `N`
commands in the same order, each record's length prefix equal to its
payload length.  The hypotheses bound the run so that the `uint64`
counter and the `int32` length prefix do not overflow. -/
theorem seq_log_roundtrip (cs : List Command)
    (h1 : cs.length < 2 ^ 64)
    (h2 : ∀ c ∈ stampSeq cs 1, (marshal c).length < 2 ^ 32) :
    (logAll initLK (cs.map fun c => (c, true))).2 = stampSeq cs 1 ∧
    (logAll initLK (cs.map fun c => (c, true))).2.map Command.id =
      List.range' 1 cs.length ∧
    (logAll initLK (cs.map fun c => (c, true))).1.log =
      ((stampSeq cs 1).map fun c => int32BE (marshal c).length ++ marshal c).flatten ∧
    frameSplit (logAll initLK (cs.map fun c => (c, true))).1.log =
      some ((stampSeq cs 1).map marshal) ∧
    ((stampSeq cs 1).map marshal).map unmarshal = (stampSeq cs 1).map some ∧
    ∀ c ∈ stampSeq cs 1,
      readInt32BE (int32BE (marshal c).length ++ marshal c) =
        some ((marshal c).length, marshal c) := by
  have hlo := logAll_ok cs initLK (by simp [initLK]; omega)
  rw [show initLK.index = 0 from rfl, show initLK.log = [] from rfl,
    Nat.zero_add, List.nil_append] at hlo
  have hframes : ((stampSeq cs 1).map fun c =>
      int32BE (marshal c).length ++ marshal c) =
      (((stampSeq cs 1).map marshal).map fun p => int32BE p.length ++ p) := by
    rw [List.map_map]
    rfl
  have hsplit : frameSplit (logAll initLK (cs.map fun c => (c, true))).1.log =
      some ((stampSeq cs 1).map marshal) := by
    rw [hlo.2, hframes]
    unfold frameSplit
    refine frameSplitF_records ((stampSeq cs 1).map marshal) _ ?_ (Nat.le_refl _)
    intro p hp
    obtain ⟨c, hc, hpc⟩ := List.mem_map.mp hp
    rw [← hpc]
    exact h2 c hc
  refine ⟨hlo.1, ?_, hlo.2, hsplit, ?_, ?_⟩
  · rw [hlo.1, stampSeq_ids]
  · rw [List.map_map]
    exact List.map_congr_left fun c hc => unmarshal_marshal c
  · intro c hc
    exact readInt32BE_int32BE _ (h2 c hc) _

/-- Two fixed commands used by concrete witnesses. -/
def cmdA : Command := ⟨Op.SET, 0, [107, 49], [118, 49], []⟩

/-- A second fixed command used by concrete witnesses. -/
def cmdB : Command := ⟨Op.GET, 0, [107, 50], [], []⟩

set_option maxRecDepth 8000 in
/-- Witness for `seq_log_roundtrip` on a two-command run. -/
theorem seq_log_roundtrip_witness :
    frameSplit (logAll initLK ([cmdA, cmdB].map fun c => (c, true))).1.log =
      some ((stampSeq [cmdA, cmdB] 1).map marshal) :=
  (seq_log_roundtrip [cmdA, cmdB] (by decide) (by decide)).2.2.2.1

theorem logAll_cons_false (st : LKState) (c : Command) (l : List (Command × Bool)) :
    logAll st ((c, false) :: l) =
      ((logAll ⟨(st.index + 1) % 2 ^ 64, st.count, st.log⟩ l).1,
        { c with id := (st.index + 1) % 2 ^ 64 } ::
          (logAll ⟨(st.index + 1) % 2 ^ 64, st.count, st.log⟩ l).2) :=
  rfl

/-- The ids assigned by a run of `logCommand` calls are
`index+1, index+2, ...` in call order, also across calls whose
serialize/write step fails (the id is taken before any fallible
step). -/
theorem logAll_ids (l : List (Command × Bool)) (st : LKState)
    (h : st.index + l.length < 2 ^ 64) :
    (logAll st l).2.map Command.id = List.range' (st.index + 1) l.length := by
  induction l generalizing st with
  | nil => simp [logAll]
  | cons cw rest ih =>
    obtain ⟨c, w⟩ := cw
    have hidx : (st.index + 1) % 2 ^ 64 = st.index + 1 :=
      Nat.mod_eq_of_lt (by simp at h; omega)
    cases w
    · rw [logAll_cons_false, hidx]
      have hrec := ih ⟨st.index + 1, st.count, st.log⟩ (by simp at h ⊢; omega)
      simp [hrec, List.range'_succ]
    · have hix2 : (nextLK st c).index = st.index + 1 := by
        simp only [nextLK]
        exact hidx
      have hrec := ih (nextLK st c) (by rw [hix2]; simp at h; omega)
      rw [hix2] at hrec
      rw [logAll_cons_true, hidx]
      simp [hrec, List.range'_succ]

/-! ## loadgenkv driver

`loadgenKV` (src/unnamed/part_000, package `loadgenkv`): operations
stamp `Id: atomic.AddUint64(&lk.index, 1)` into a command and append it
to the in-memory `lk.cmds` slice. -/

/-- Mutable `loadgenKV` state: the `uint64` id counter and the
accumulated command slice. -/
structure LGState where
  index : Nat
  cmds : List Command
deriving DecidableEq

/-- `loadgenKV` state at creation: counter zero, empty slice. -/
def initLG : LGState := ⟨0, []⟩

/-- Stamp the next `uint64` id into a command and append it to the
slice (the shared shape of `loadgenKV.Read` and `loadgenKV.Insert`). -/
def pushLG (st : LGState) (c : Command) : LGState :=
  ⟨(st.index + 1) % 2 ^ 64,
    st.cmds ++ [{ c with id := (st.index + 1) % 2 ^ 64 }]⟩

/-- `loadgenKV.Read` (src/unnamed/part_000 lines 295-306). -/
def loadgenReadM (st : LGState) (key : List Nat) : LGState :=
  pushLG st { op := Op.GET, id := 0, key := key, value := [], ip := [] }

/-- `val` accumulation of `loadgenKV.Insert`: with `byteBlocks = 1` the
loop concatenates at most two values from the map before breaking. -/
def catValues (values : List (List Nat × List Nat)) : List Nat :=
  ((values.take 2).map Prod.snd).flatten

/-- `loadgenKV.Insert` (src/unnamed/part_000 lines 310-331). -/
def loadgenInsertM (st : LGState) (key : List Nat)
    (values : List (List Nat × List Nat)) : LGState :=
  pushLG st { op := Op.SET, id := 0, key := key, value := catValues values, ip := [] }

/-- `loadgenKV.Update` (src/unnamed/part_000 lines 335-339): the body is
exactly `return lk.Insert(ctx, table, key, values)`. -/
def loadgenUpdateM (st : LGState) (key : List Nat)
    (values : List (List Nat × List Nat)) : LGState :=
  loadgenInsertM st key values

/-- One benchmark operation issued to `loadgenKV`. -/
inductive LGOp where
  | read : List Nat → LGOp
  | insert : List Nat → List (List Nat × List Nat) → LGOp
  | update : List Nat → List (List Nat × List Nat) → LGOp

/-- A sequence of `loadgenKV` operations in one process. -/
def runLG (st : LGState) : List LGOp → LGState
  | [] => st
  | .read k :: rest => runLG (loadgenReadM st k) rest
  | .insert k v :: rest => runLG (loadgenInsertM st k v) rest
  | .update k v :: rest => runLG (loadgenUpdateM st k v) rest

theorem pushLG_index (st : LGState) (c : Command) (h : st.index + 1 < 2 ^ 64) :
    (pushLG st c).index = st.index + 1 := by
  simp only [pushLG]
  omega

theorem pushLG_ids (st : LGState) (c : Command) (h : st.index + 1 < 2 ^ 64) :
    (pushLG st c).cmds.map Command.id =
      st.cmds.map Command.id ++ [st.index + 1] := by
  simp [pushLG]
  omega

theorem runLG_ids (ops : List LGOp) (st : LGState)
    (h : st.index + ops.length < 2 ^ 64) :
    (runLG st ops).cmds.map Command.id =
      st.cmds.map Command.id ++ List.range' (st.index + 1) ops.length := by
  induction ops generalizing st with
  | nil => simp [runLG]
  | cons op rest ih =>
    have hb : st.index + 1 < 2 ^ 64 := by simp at h; omega
    cases op with
    | read k =>
      rw [runLG, loadgenReadM]
      have hrec := ih
        (pushLG st { op := Op.GET, id := 0, key := k, value := [], ip := [] })
        (by rw [pushLG_index _ _ hb]; simp at h; omega)
      rw [hrec, pushLG_index _ _ hb, pushLG_ids _ _ hb]
      simp [List.range'_succ]
    | insert k v =>
      rw [runLG, loadgenInsertM]
      have hrec := ih
        (pushLG st { op := Op.SET, id := 0, key := k, value := catValues v, ip := [] })
        (by rw [pushLG_index _ _ hb]; simp at h; omega)
      rw [hrec, pushLG_index _ _ hb, pushLG_ids _ _ hb]
      simp [List.range'_succ]
    | update k v =>
      rw [runLG, loadgenUpdateM, loadgenInsertM]
      have hrec := ih
        (pushLG st { op := Op.SET, id := 0, key := k, value := catValues v, ip := [] })
        (by rw [pushLG_index _ _ hb]; simp at h; omega)
      rw [hrec, pushLG_index _ _ hb, pushLG_ids _ _ hb]
      simp [List.range'_succ]

theorem pairwise_lt_range'_own (s n : Nat) :
    List.Pairwise (· < ·) (List.range' s n) := by
  induction n generalizing s with
  | zero => simp
  | succ m ih =>
    rw [List.range'_succ]
    refine List.Pairwise.cons ?_ (ih (s + 1))
    intro b hb
    have := List.mem_range'_1.mp hb
    omega

/-- Claim C8: within one process, the command ids assigned by the
localkv `logCommand` path (even across calls whose write step fails)
and by the loadgenkv operation path each form a strictly increasing
sequence — every call observes an id strictly greater than every id
assigned before it. -/
theorem log_ids_strictly_increasing (l : List (Command × Bool))
    (ops : List LGOp) (h1 : l.length < 2 ^ 64) (h2 : ops.length < 2 ^ 64) :
    List.Pairwise (· < ·) ((logAll initLK l).2.map Command.id) ∧
    List.Pairwise (· < ·) ((runLG initLG ops).cmds.map Command.id) := by
  constructor
  · rw [logAll_ids l initLK (by simp [initLK]; omega)]
    exact pairwise_lt_range'_own _ _
  · rw [runLG_ids ops initLG (by simp [initLG]; omega)]
    simp only [initLG, List.map_nil, List.nil_append]
    exact pairwise_lt_range'_own _ _

/-- Witness for `log_ids_strictly_increasing`: two localkv calls (the
second failing) and two loadgen operations. -/
theorem log_ids_strictly_increasing_witness :
    List.Pairwise (· < ·)
      ((logAll initLK [(cmdA, true), (cmdB, false)]).2.map Command.id) ∧
    List.Pairwise (· < ·)
      ((runLG initLG [LGOp.read [107], LGOp.insert [108] [([1], [2])]]).cmds.map
        Command.id) :=
  log_ids_strictly_increasing [(cmdA, true), (cmdB, false)]
    [LGOp.read [107], LGOp.insert [108] [([1], [2])]] (by decide) (by decide)

/-! ## Update delegation across the drivers

`beelogKV.Update`, `localKV.Update`, `etcdDB.Update` and
`loadgenKV.Update` all have the body
`return <receiver>.Insert(ctx, table, key, values)`. -/

/-- `localKV.Read` (db/localkv/db.go lines 226-238): log a `GET`
command, return the map binding the key to nil (success flag is whether
the log write succeeded). -/
def localReadM (st : LKState) (key : List Nat) (wOk : Bool) : LKState × Bool :=
  let r := logCommand st { op := Op.GET, id := 0, key := key, value := [], ip := [] } wOk
  (r.1, r.2.2)

/-- `localKV.Insert` (db/localkv/db.go lines 242-256): take one value
from the map, log a `SET` command. -/
def localInsertM (st : LKState) (key : List Nat)
    (values : List (List Nat × List Nat)) (wOk : Bool) : LKState × Bool :=
  let r := logCommand st
    { op := Op.SET, id := 0, key := key, value := headValue values, ip := [] } wOk
  (r.1, r.2.2)

/-- `localKV.Update` (db/localkv/db.go lines 260-264): the body is
exactly `return lk.Insert(ctx, table, key, values)`. -/
def localUpdateM (st : LKState) (key : List Nat)
    (values : List (List Nat × List Nat)) (wOk : Bool) : LKState × Bool :=
  localInsertM st key values wOk

/-- Mutable state of the etcd backend as seen through one client: the
key-value store and the latency lines written so far. -/
structure EtcdState where
  store : List (List Nat × List Nat)
  lats : List Nat
deriving DecidableEq

/-- Modelled from the spec: the `Put` of the external etcd client
(go.etcd.io/etcd/clientv3, not under src), treated as an overwrite of
the binding for the key. -/
def storePut (s : List (List Nat × List Nat)) (k v : List Nat) :
    List (List Nat × List Nat) :=
  match s with
  | [] => [(k, v)]
  | (k0, v0) :: rest =>
    if k0 = k then (k, v) :: rest else (k0, v0) :: storePut rest k v

/-- `etcdDB.Insert` (src/unnamed/part_000 lines 97-134): take one value
from the map; if `ed.lat && id < ed.maxC && checkLat()`, wrap the `Put`
call in the clock measurement and record the duration, else `Put`
untimed; then sleep up to `thinkTime`.  Returns the new backend state
and the final clock. -/
def etcdInsertM (lat : Bool) (mx id : Nat) (draw : Bool)
    (putCost thinkCost c0 : Nat) (st : EtcdState) (key : List Nat)
    (values : List (List Nat × List Nat)) : EtcdState × Nat :=
  let val := headValue values
  if lat && decide (id < mx) && draw then
    let c1 := c0 + putCost
    (⟨storePut st.store key val, st.lats ++ [c1 - c0]⟩, c1 + thinkCost)
  else
    (⟨storePut st.store key val, st.lats⟩, c0 + putCost + thinkCost)

/-- `etcdDB.Update` (src/unnamed/part_000 lines 138-142): the body is
exactly `return ed.Insert(ctx, table, key, values)`. -/
def etcdUpdateM (lat : Bool) (mx id : Nat) (draw : Bool)
    (putCost thinkCost c0 : Nat) (st : EtcdState) (key : List Nat)
    (values : List (List Nat × List Nat)) : EtcdState × Nat :=
  etcdInsertM lat mx id draw putCost thinkCost c0 st key values

/-- Claim C9: in every driver, `Update` is a call to `Insert`, so for
every input it returns exactly the same result and has exactly the same
effect on the driver state as `Insert` on that input (shown for the
kvbeelog, localkv, etcd and loadgenkv drivers). -/
theorem update_delegates_to_insert :
    (∀ out mx id key values e c0,
      beelogUpdateM out mx id key values e c0 =
        beelogInsertM out mx id key values e c0) ∧
    (∀ st key values w,
      localUpdateM st key values w = localInsertM st key values w) ∧
    (∀ lat mx id draw pc tc c0 st key values,
      etcdUpdateM lat mx id draw pc tc c0 st key values =
        etcdInsertM lat mx id draw pc tc c0 st key values) ∧
    (∀ st key values,
      loadgenUpdateM st key values = loadgenInsertM st key values) :=
  ⟨fun _ _ _ _ _ _ _ => rfl, fun _ _ _ _ => rfl,
    fun _ _ _ _ _ _ _ _ _ _ => rfl, fun _ _ _ => rfl⟩

end GoYCSB
